import Mathlib

/-!
Verification development for the WordGenerator repository.

The embedding covers the two source files:

* src/preprocess_data.py — the glove preprocessing pipeline:
  remove_duplicate_chars, filter_words (a regex letter filter) and
  pickle_word_vecs (word/char index tables).  Python dicts are embedded as
  association lists (List (key × value)) read through List.lookup; a Python
  str is embedded as a Lean String, and iterating a Python str yields its
  one-character substrings, embedded as single-character Lean Strings.
  Floating point vector entries are embedded as rationals.

* src/modules.py — the character decoder modules CharDecoderRNN and
  CharDecoderHeadRNN, and the commented greedy generation demo at the bottom
  of the file.  The inner WrappedRNN (imported from pytorch_utils, outside
  this repository) is kept abstract as a function field; torch tensors are
  embedded as nested lists of rationals, and a dynamically typed torch value
  (tensor of rank 2 or 3, or a Python tuple of two values) as the inductive
  type TVal.  The transcendental scalar operations (sigmoid, tanh, sqrt)
  have no rational realization, so they are supplied as an interpretation
  parameter (ScalarSem); every theorem below holds for every interpretation.
-/

/-! ## Preprocessing: src/preprocess_data.py -/

/-- Parse the body of a Python regex character class into a list of
(lo, hi) ranges, one per class item; a literal character c becomes the
degenerate range (c, c).  Follows the rules of Python re for the strings
spliced in by filter_words: a dash between two characters denotes a range,
a dash at the start or at the end of the class is a literal, every other
character is a literal.  The model treats a closing bracket and a
backslash as ordinary literals, so it is faithful exactly for class bodies
that contain no unescaped closing bracket after the first position, no
backslash, and no reversed range (on which Python re raises an error). -/
def classRanges : List Char → List (Char × Char)
  | [] => []
  | a :: '-' :: b :: rest2 => (a, b) :: classRanges rest2
  | a :: '-' :: [] => [(a, a), ('-', '-')]
  | [a] => [(a, a)]
  | a :: b :: rest => (a, a) :: classRanges (b :: rest)

/-- Membership of a character in the Python regex character class whose body
is cls: a leading caret negates the class, otherwise the character must fall
in one of the parsed ranges. -/
def charInClass (cls : List Char) (c : Char) : Bool :=
  match cls with
  | '^' :: rest => ! (classRanges rest).any (fun p => decide (p.1 ≤ c) && decide (c ≤ p.2))
  | _ => (classRanges cls).any (fun p => decide (p.1 ≤ c) && decide (c ≤ p.2))

/-- Embedding of the test used by filter_words, namely the Python expression
re.match of the pattern caret, open bracket, letters, close bracket, plus,
dollar against the word.  The pattern matches when the word is nonempty and
every character lies in the class, or — because an unanchored dollar also
matches just before a single trailing newline — when the word is a nonempty
class-only string followed by one final newline character. -/
def reMatchClassPlus (letters : String) (word : String) : Bool :=
  let cls := letters.data
  let w := word.data
  (!w.isEmpty && w.all (charInClass cls))
    || (w.getLast? == some '\n' && !w.dropLast.isEmpty && w.dropLast.all (charInClass cls))

/-- filter_words (src/preprocess_data.py lines 55-65): remove from the
word-vector dictionary every word rejected by the regex letter filter.
The dictionary is an association list; the word vectors are untouched, so
the value type is a parameter. -/
def filter_words {V : Type} (word_vectors_dict : List (String × V)) (letters : String) :
    List (String × V) :=
  word_vectors_dict.filter (fun p => reMatchClassPlus letters p.1)

/-- remove_duplicate_chars (src/preprocess_data.py lines 47-50): drop
duplicate characters of letters and return the remaining characters sorted.
Python builds a set and sorts it; the result is the unique ascending
enumeration of the distinct characters, obtained here by sorting the
deduplicated character list. -/
def remove_duplicate_chars (letters : String) : String :=
  String.mk ((letters.data.dedup).insertionSort (· ≤ ·))

/-- The one-character substrings obtained by iterating a Python str. -/
def charsOf (s : String) : List String :=
  s.data.map (fun c => String.mk [c])

/-- The char2idx table of pickle_word_vecs (src/preprocess_data.py line 119):
the Python dict built by zipping the cleaned letters string with the range of
its length, keyed by the one-character substrings. -/
def char2idxTable (letters : String) : List (String × Nat) :=
  (charsOf letters).zip (List.range (charsOf letters).length)

/-- The idx2char table of pickle_word_vecs (src/preprocess_data.py line 120):
the Python dict built by zipping the range with the cleaned letters string. -/
def idx2charTable (letters : String) : List (Nat × String) :=
  (List.range (charsOf letters).length).zip (charsOf letters)

/-- The two pickled artifacts written by pickle_word_vecs: the word tables
with the word-vector matrix, and the char tables. -/
structure PickledWordVecs where
  word2idx : List (String × Nat)
  idx2word : List (Nat × String)
  word_vecs : List (List ℚ)
  char2idx : List (String × Nat)
  idx2char : List (Nat × String)
deriving DecidableEq

/-- pickle_word_vecs (src/preprocess_data.py lines 70-125): clean the
letters, filter the dictionary, sort the surviving words, and build the
word and char tables.  The Python function indexes words[0] to read the
embedding dimension before any file is written; on an empty filtered
vocabulary that indexing raises IndexError, embedded here as none, and in
that case no output value exists at all.  The dictionary lookup of the
first word mirrors the Python expression word_vectors_dict[words[0]]; its
failure branch is unreachable because the first sorted word is a key of
the dictionary. -/
def pickle_word_vecs (word_vectors_dict : List (String × List ℚ)) (letters : String) :
    Option PickledWordVecs :=
  let letters2 := remove_duplicate_chars letters
  let filtered := filter_words word_vectors_dict letters2
  let words := (filtered.map Prod.fst).insertionSort (· ≤ ·)
  match words with
  | [] => none
  | w0 :: _ =>
    match word_vectors_dict.lookup w0 with
    | none => none
    | some _ =>
      some { word2idx := words.zip (List.range words.length)
             idx2word := (List.range words.length).zip words
             word_vecs := words.map (fun w => (filtered.lookup w).getD [])
             char2idx := char2idxTable letters2
             idx2char := idx2charTable letters2 }

/-! ## Decoder modules: src/modules.py -/

/-- Interpretation of the scalar operations that have no rational
realization: the logistic sigmoid, the hyperbolic tangent and the square
root used inside batch normalization.  Every theorem about the modules
holds for an arbitrary interpretation. -/
structure ScalarSem where
  sigmoidFn : ℚ → ℚ
  tanhFn : ℚ → ℚ
  sqrtFn : ℚ → ℚ

/-- A dynamically typed torch value as handled by the modules: a rank-2
tensor (batch by features), a rank-3 tensor (layers by batch by features),
or a Python tuple of two values (the LSTM state pair). -/
inductive TVal
  | mat : List (List ℚ) → TVal
  | t3 : List (List (List ℚ)) → TVal
  | pair : TVal → TVal → TVal
deriving DecidableEq

/-- The activation registry ACTS (src/modules.py lines 39-42). -/
inductive ActKind
  | relu
  | sigmoid
  | tanh
deriving DecidableEq

/-- ACTS (src/modules.py lines 39-42): the name-to-activation dictionary.
Indexing it with an unknown name raises KeyError, embedded as a none
lookup. -/
def ACTS : List (String × ActKind) :=
  [("relu", ActKind.relu), ("sigmoid", ActKind.sigmoid), ("tanh", ActKind.tanh)]

/-- Pointwise application of an activation: nn.ReLU clamps below at zero,
nn.Sigmoid and nn.Tanh apply the interpreted transcendental functions. -/
def applyAct (S : ScalarSem) : ActKind → ℚ → ℚ
  | ActKind.relu => fun x => max x 0
  | ActKind.sigmoid => S.sigmoidFn
  | ActKind.tanh => S.tanhFn

/-- An nn.Linear module: a weight matrix (out rows, in columns) and a bias
vector.  Weights are arbitrary because torch initializes them randomly. -/
structure LinearM where
  weight : List (List ℚ)
  bias : List ℚ

/-- Dot product of two vectors (rows are assumed shape-compatible, as torch
enforces by raising on mismatch). -/
def dot (xs ys : List ℚ) : ℚ :=
  (xs.zip ys).foldl (fun acc p => acc + p.1 * p.2) 0

/-- Apply a linear layer to one feature vector: weight times x plus bias. -/
def LinearM.apply (l : LinearM) (x : List ℚ) : List ℚ :=
  (l.weight.zip l.bias).map (fun wb => dot wb.1 x + wb.2)

/-- Apply a linear layer row-wise over a batch. -/
def LinearM.applyBatch (l : LinearM) (xs : List (List ℚ)) : List (List ℚ) :=
  xs.map l.apply

/-- An nn.BatchNorm1d module: learned scale gamma and shift beta, the
running statistics used in evaluation mode, the numerical epsilon, and the
training flag. -/
structure BatchNorm1dM where
  gamma : List ℚ
  beta : List ℚ
  running_mean : List ℚ
  running_var : List ℚ
  eps : ℚ
  training : Bool

/-- Mean of a list of rationals. -/
def listMean (v : List ℚ) : ℚ :=
  v.sum / (v.length : ℚ)

/-- Biased variance of a list of rationals, as used by batch normalization
to normalize the current batch. -/
def listBiasedVar (v : List ℚ) : ℚ :=
  ((v.map (fun x => (x - listMean v) * (x - listMean v))).sum) / (v.length : ℚ)

/-- Column j of a batch (the values of feature j across the batch). -/
def featureColumn (xs : List (List ℚ)) (j : Nat) : List ℚ :=
  xs.map (fun r => r.getD j 0)

/-- BatchNorm1d applied to a rank-2 batch.  In training mode the batch
statistics are used and torch raises on a batch with at most one row
(embedded as none); in evaluation mode the running statistics are used
row-wise.  Out-of-range accesses default benignly; torch instead raises on
shape mismatch, which no theorem below exercises. -/
def BatchNorm1dM.apply (S : ScalarSem) (bn : BatchNorm1dM) (xs : List (List ℚ)) :
    Option (List (List ℚ)) :=
  if bn.training then
    if xs.length ≤ 1 then none
    else
      some (xs.map (fun row => (List.range (xs.headD []).length).map (fun j =>
        bn.gamma.getD j 1 *
          ((row.getD j 0 - listMean (featureColumn xs j)) /
            S.sqrtFn (listBiasedVar (featureColumn xs j) + bn.eps)) +
          bn.beta.getD j 0)))
  else
    some (xs.map (fun row => (List.range row.length).map (fun j =>
      bn.gamma.getD j 1 *
        ((row.getD j 0 - bn.running_mean.getD j 0) /
          S.sqrtFn (bn.running_var.getD j 1 + bn.eps)) +
        bn.beta.getD j 0)))

/-- One stage of the nn.Sequential head: the linear projection, the chosen
activation, or the batch normalization. -/
inductive HeadLayer
  | lin : LinearM → HeadLayer
  | act : ActKind → HeadLayer
  | bn : BatchNorm1dM → HeadLayer

/-- Run one head stage on a rank-2 batch. -/
def runLayer (S : ScalarSem) : HeadLayer → List (List ℚ) → Option (List (List ℚ))
  | HeadLayer.lin l, xs => some (l.applyBatch xs)
  | HeadLayer.act a, xs => some (xs.map (List.map (applyAct S a)))
  | HeadLayer.bn b, xs => b.apply S xs

/-- Run an nn.Sequential: apply the stages left to right. -/
def runSequential (S : ScalarSem) (layers : List HeadLayer) (xs : List (List ℚ)) :
    Option (List (List ℚ)) :=
  layers.foldlM (fun acc layer => runLayer S layer acc) xs

/-- torch unsqueeze at dimension 0: wrap the rank-2 tensor in a singleton
leading num-layers dimension, giving a rank-3 tensor. -/
def unsqueeze0 (m : List (List ℚ)) : List (List (List ℚ)) :=
  [m]

/-- The constructor arguments that CharDecoderRNN passes to WrappedRNN
(src/modules.py lines 27-33).  Extra keyword arguments are recorded as an
association list of opaque name-value pairs. -/
structure WrappedRNNArgs where
  mode : String
  input_size : Nat
  hidden_size : Nat
  num_layers : Nat
  kwargs : List (String × String)
deriving DecidableEq

/-- CharDecoderRNN (src/modules.py lines 6-36).  The configuration records
what the Python initializer received and forwarded; the WrappedRNN forward
computation lives outside this repository (pytorch_utils), so it is kept
abstract as the function field forwardFn from a hidden state and a packed
input to the module output.  P is the packed-input type and O the output
type. -/
structure CharDecoderRNN (P O : Type) where
  mode : String
  hidden_size : Nat
  char_count : Nat
  char_embedding_size : Nat
  rnnArgs : WrappedRNNArgs
  forwardFn : TVal → P → O

/-- The CharDecoderRNN initializer: builds the WrappedRNN with
input_size equal to the char embedding size, one layer, and whatever extra
keyword arguments the caller handed in. -/
def CharDecoderRNN.make {P O : Type} (mode : String)
    (hidden_size char_count char_embedding_size : Nat)
    (kwargs : List (String × String)) (forwardFn : TVal → P → O) :
    CharDecoderRNN P O :=
  { mode := mode
    hidden_size := hidden_size
    char_count := char_count
    char_embedding_size := char_embedding_size
    rnnArgs := { mode := mode
                 input_size := char_embedding_size
                 hidden_size := hidden_size
                 num_layers := 1
                 kwargs := kwargs }
    forwardFn := forwardFn }

/-- CharDecoderRNN.forward (src/modules.py lines 35-36): delegate to the
wrapped recurrent core. -/
def CharDecoderRNN.forward {P O : Type} (d : CharDecoderRNN P O)
    (hidden : TVal) (packed_input : P) : O :=
  d.forwardFn hidden packed_input

/-- CharDecoderHeadRNN (src/modules.py lines 44-94): the decoder plus the
embedding-to-hidden head, which is the nn.Sequential of a linear layer, the
activation selected from ACTS, and a BatchNorm1d. -/
structure CharDecoderHeadRNN (P O : Type) where
  mode : String
  decoder : CharDecoderRNN P O
  headLin : LinearM
  headAct : ActKind
  headBn : BatchNorm1dM

/-- The CharDecoderHeadRNN initializer (src/modules.py lines 56-85).  The
activation name is looked up in ACTS; an unknown name raises KeyError
during construction, embedded as none, so no module value exists in that
case.  The inner CharDecoderRNN is built from the mode and the three size
arguments only: the extra keyword arguments accepted by the initializer
are not passed on (line 76-79), so the decoder is created with an empty
kwargs list.  The linear and batch-norm parameters stand for the randomly
initialized torch parameters and the forward function for the external
WrappedRNN computation. -/
def mkCharDecoderHeadRNN {P O : Type} (mode : String)
    (hidden_size char_count char_embedding_size _input_embedding_size : Nat)
    (embedding_to_hidden_activation : String) (kwargs : List (String × String))
    (headLin : LinearM) (headBn : BatchNorm1dM) (forwardFn : TVal → P → O) :
    Option (CharDecoderHeadRNN P O) :=
  match ACTS.lookup embedding_to_hidden_activation with
  | none => none
  | some a =>
    some { mode := mode
           decoder := CharDecoderRNN.make mode hidden_size char_count
             char_embedding_size [] forwardFn
           headLin := headLin
           headAct := a
           headBn := headBn }

/-- The embedding_to_hidden head (src/modules.py lines 81-85): the
nn.Sequential of the linear projection, the activation and the batch
normalization, applied to a rank-2 batch of word embeddings. -/
def CharDecoderHeadRNN.embedding_to_hidden {P O : Type} (S : ScalarSem)
    (m : CharDecoderHeadRNN P O) (x : List (List ℚ)) : Option (List (List ℚ)) :=
  runSequential S [HeadLayer.lin m.headLin, HeadLayer.act m.headAct, HeadLayer.bn m.headBn] x

/-- CharDecoderHeadRNN.forward (src/modules.py lines 87-94).  With use_head
true the hidden argument is treated as a rank-2 batch of word embeddings:
it runs through the head, gains a leading num-layers dimension, is
duplicated into a state pair when the mode is LSTM, and is handed to the
decoder.  Applying the head to a value that is not a rank-2 tensor is a
torch type error, embedded as none.  With use_head false the hidden
argument is passed to the decoder unchanged. -/
def CharDecoderHeadRNN.forward {P O : Type} (S : ScalarSem)
    (m : CharDecoderHeadRNN P O) (hidden : TVal) (packed_input : P)
    (use_head : Bool) : Option O :=
  if use_head then
    match hidden with
    | TVal.mat x =>
      match m.embedding_to_hidden S x with
      | none => none
      | some y =>
        let h := TVal.t3 (unsqueeze0 y)
        some (m.decoder.forward (if m.mode = "LSTM" then TVal.pair h h else h) packed_input)
    | _ => none
  else
    some (m.decoder.forward hidden packed_input)

/-! ## The greedy generation demo: src/modules.py lines 129-149 -/

/-- Index of the first maximal entry of a score list, the embedding of
torch argmax on the demo's single-step score tensor (the demo's concrete
score lists below have a strict maximum, so tie-breaking is immaterial).
The running arguments are the best score so far, the index of the next
element, and the index of the best score so far. -/
def argmaxAux : List ℚ → ℚ → Nat → Nat → Nat
  | [], _, _, bestIdx => bestIdx
  | x :: rest, best, i, bestIdx =>
    if best < x then argmaxAux rest x (i + 1) i
    else argmaxAux rest best (i + 1) bestIdx

/-- torch argmax over a score list (zero on the empty list, on which torch
would raise; never exercised below). -/
def argmaxIdx : List ℚ → Nat
  | [] => 0
  | x :: rest => argmaxAux rest x 1 0

/-- The generation driver instantiation of the decoder modules: the packed
input is the single character index fed at a step, and a forward call
returns the flattened score list together with the next hidden value. -/
abbrev GenModel : Type := CharDecoderHeadRNN Nat (List ℚ × TVal)

/-- The while-True loop of the demo (src/modules.py lines 142-148): run a
no-head forward on the current input, take the arg-max character; if it is
the END symbol stop and return the output accumulated so far, otherwise
append the character and continue.  The Python loop is unbounded, so the
embedding carries fuel; none means the fuel ran out while the loop was
still going. -/
def genLoop (S : ScalarSem) (m : GenModel) (idx2char : Nat → String) :
    Nat → TVal → Nat → String → Option String
  | 0, _, _, _ => none
  | fuel + 1, hid, inp, out =>
    match m.forward S hid inp false with
    | none => none
    | some (pout, hid2) =>
      let nextIdx := argmaxIdx pout
      if idx2char nextIdx = "END" then some out
      else genLoop S m idx2char fuel hid2 nextIdx (out ++ idx2char nextIdx)

/-- The whole greedy generation demo (src/modules.py lines 129-149): one
head-initialized forward on the word embedding starting from the START
index, whose arg-max character is appended to the output unconditionally —
the demo performs no END check on this first character — followed by the
while loop with the head bypassed. -/
def generateGreedy (S : ScalarSem) (m : GenModel) (idx2char : Nat → String)
    (startIdx : Nat) (emb : TVal) (fuel : Nat) : Option String :=
  match m.forward S emb startIdx true with
  | none => none
  | some (pout, hid) =>
    let nextIdx := argmaxIdx pout
    genLoop S m idx2char fuel hid nextIdx ("" ++ idx2char nextIdx)

/-! ## Concrete instances used to exercise the modules -/

/-- The scalar interpretation that realizes sigmoid, tanh and sqrt as the
identity; concrete computations below are arranged so that these functions
are only applied where any interpretation gives the same result. -/
def scalarSemId : ScalarSem :=
  { sigmoidFn := id, tanhFn := id, sqrtFn := id }

/-- A concrete LSTM-mode head module over one feature, with identity-like
parameters and bn in evaluation mode; the decoder returns its own hidden
argument so that the state handed to it is observable. -/
def lstmModel : CharDecoderHeadRNN Nat TVal :=
  { mode := "LSTM"
    decoder := CharDecoderRNN.make "LSTM" 1 3 1 [] (fun h _ => h)
    headLin := { weight := [[1]], bias := [0] }
    headAct := ActKind.relu
    headBn := { gamma := [1], beta := [0], running_mean := [0], running_var := [1],
                eps := 0, training := false } }

/-- A concrete generation model whose scores are constantly (0, 10, 0) over
the three-symbol alphabet START, END, a — so the END index 1 is the strict
arg-max at every step, including the very first one. -/
def endModel : GenModel :=
  { mode := "GRU"
    decoder := CharDecoderRNN.make "GRU" 1 3 1 [] (fun h _ => ([0, 10, 0], h))
    headLin := { weight := [[1]], bias := [0] }
    headAct := ActKind.relu
    headBn := { gamma := [1], beta := [0], running_mean := [0], running_var := [1],
                eps := 0, training := false } }

/-- The demo's character table for the three-symbol alphabet: index 0 is
START, index 1 is END, index 2 is the letter a. -/
def endIdx2char : Nat → String :=
  fun i => if i = 0 then "START" else if i = 1 then "END" else "a"

/-! ## Theorems -/

theorem classRanges_cons_of_ne (a b : Char) (t : List Char) (hb : b ≠ '-') :
    classRanges (a :: b :: t) = (a, a) :: classRanges (b :: t) := by
  rw [classRanges.eq_def]
  split <;> simp_all

theorem classRanges_no_dash : ∀ (l : List Char), '-' ∉ l →
    classRanges l = l.map (fun c => (c, c))
  | [], _ => rfl
  | [_], _ => rfl
  | a :: b :: t, h => by
    have hb : b ≠ '-' := fun hb => h (by simp [hb])
    have ht : '-' ∉ b :: t := fun hm => h (List.mem_cons_of_mem _ hm)
    rw [classRanges_cons_of_ne a b t hb, classRanges_no_dash (b :: t) ht]
    rfl

theorem charInClass_literal {l : List Char} (h : ∀ c ∈ l, c ≠ '^' ∧ c ≠ '-') (c : Char) :
    charInClass l c = true ↔ c ∈ l := by
  have hnd : '-' ∉ l := fun hm => (h _ hm).2 rfl
  have hbody : ((classRanges l).any (fun p => decide (p.1 ≤ c) && decide (c ≤ p.2)) = true)
      ↔ c ∈ l := by
    rw [classRanges_no_dash l hnd]
    simp only [List.any_eq_true, List.mem_map, Bool.and_eq_true, decide_eq_true_eq]
    constructor
    · rintro ⟨p, ⟨x, hx, rfl⟩, h1, h2⟩
      dsimp only at h1 h2
      rwa [le_antisymm h1 h2] at hx
    · intro hc
      exact ⟨(c, c), ⟨c, hc, rfl⟩, le_refl c, le_refl c⟩
  cases l with
  | nil => simp [charInClass, classRanges]
  | cons a t =>
    have ha : a ≠ '^' := (h a (List.mem_cons_self a t)).1
    rw [charInClass.eq_def]
    split
    next heq =>
      rw [List.cons.injEq] at heq
      exact absurd heq.1 ha
    next => exact hbody

theorem string_eq_empty_iff (s : String) : s = "" ↔ s.data = [] := by
  constructor
  · intro h
    rw [h]
  · intro h
    cases s with
    | mk data => cases h; rfl

theorem reMatchClassPlus_literal (letters : String)
    (hlit : ∀ c ∈ letters.data, c ≠ '^' ∧ c ≠ '-') (w : String)
    (hnl : w.data.getLast? ≠ some '\n') :
    reMatchClassPlus letters w = true ↔ (w.data ≠ [] ∧ ∀ c ∈ w.data, c ∈ letters.data) := by
  have h2 : (w.data.getLast? == some '\n') = false := by
    simpa using hnl
  rw [reMatchClassPlus]
  simp only [h2, Bool.false_and, Bool.or_false, Bool.and_eq_true, Bool.not_eq_true',
    List.all_eq_true, charInClass_literal hlit]
  constructor
  · rintro ⟨hempty, hall⟩
    exact ⟨by simpa [List.isEmpty_iff] using hempty, hall⟩
  · rintro ⟨hempty, hall⟩
    exact ⟨by simpa [List.isEmpty_iff] using hempty, hall⟩

/-- Claim C2, amended: for a nonempty letters string containing none of the
regex class metacharacters (caret, dash, backslash, closing bracket), and
for words without a trailing newline, filter_words retains exactly the
dictionary entries whose word is nonempty and made only of characters of
letters.  The original claim fails for letters strings that the regex reads
as ranges or negations (counterexample below) and for the empty word, which
is removed although it vacuously uses only allowed characters. -/
theorem filter_words_mem_iff {V : Type} (d : List (String × V)) (letters : String)
    (hne : letters ≠ "")
    (hlit : ∀ c ∈ letters.data, c ≠ '^' ∧ c ≠ '-' ∧ c ≠ '\\' ∧ c ≠ ']')
    (p : String × V) (hnl : p.1.data.getLast? ≠ some '\n') :
    p ∈ filter_words d letters ↔
      (p ∈ d ∧ p.1 ≠ "" ∧ ∀ c ∈ p.1.data, c ∈ letters.data) := by
  have hiff := reMatchClassPlus_literal letters
    (fun c hc => ⟨(hlit c hc).1, (hlit c hc).2.1⟩) p.1 hnl
  rw [filter_words, List.mem_filter, hiff]
  simp only [ne_eq, string_eq_empty_iff]

/-- Claim C2, counterexample: with letters "a-c" the spliced-in character
class denotes the range from a to c, so the word "b" survives the filter
although b is not one of the characters of the letters argument. -/
theorem filter_words_letters_cex :
    (("b", 0) : String × Nat) ∈ filter_words [(("b" : String), (0 : Nat))] "a-c"
    ∧ ¬ (∀ c ∈ ("b" : String).data, c ∈ ("a-c" : String).data) := by
  constructor
  · decide
  · decide

/-- Witness for filter_words_mem_iff at concrete inputs: letters "ab" is
nonempty and metacharacter-free, the word "ab" has no trailing newline, and
the equivalence holds at the singleton dictionary. -/
theorem filter_words_mem_iff_witness :
    (("ab" : String) ≠ "") ∧
    (∀ c ∈ ("ab" : String).data, c ≠ '^' ∧ c ≠ '-' ∧ c ≠ '\\' ∧ c ≠ ']') ∧
    (("ab" : String).data.getLast? ≠ some '\n') ∧
    ((("ab", 0) : String × Nat) ∈ filter_words [(("ab" : String), (0 : Nat))] "ab" ↔
      ((("ab", 0) : String × Nat) ∈ [(("ab" : String), (0 : Nat))] ∧ ("ab" : String) ≠ "" ∧
        ∀ c ∈ ("ab" : String).data, c ∈ ("ab" : String).data)) :=
  ⟨by decide, by decide, by decide,
    filter_words_mem_iff [(("ab" : String), (0 : Nat))] "ab" (by decide) (by decide)
      ("ab", 0) (by decide)⟩

theorem lookup_some_of_mem {β : Type} {k : String} {v : β} :
    ∀ {l : List (String × β)}, (k, v) ∈ l → ∃ w, l.lookup k = some w := by
  intro l
  induction l with
  | nil => intro h; cases h
  | cons q t ih =>
    obtain ⟨qk, qv⟩ := q
    intro h
    by_cases hk : k = qk
    · exact ⟨qv, by simp [List.lookup, hk]⟩
    · rcases List.mem_cons.mp h with h1 | h1
      · exact absurd (congrArg Prod.fst h1) (by simpa using hk)
      · rcases ih h1 with ⟨w, hw⟩
        have hbeq : (k == qk) = false := by simpa using hk
        exact ⟨w, by simp [List.lookup, hbeq, hw]⟩

/-- Claim C10: pickle_word_vecs produces an output value exactly when at
least one word survives the letter filter; with an empty filtered
vocabulary the indexing of the first sorted word fails before anything is
written, so no (empty) tables are ever produced. -/
theorem pickle_word_vecs_none_iff (d : List (String × List ℚ)) (letters : String) :
    pickle_word_vecs d letters = none ↔
      filter_words d (remove_duplicate_chars letters) = [] := by
  have hperm := List.perm_insertionSort (· ≤ ·)
    ((filter_words d (remove_duplicate_chars letters)).map Prod.fst)
  simp only [pickle_word_vecs]
  cases hwords : ((filter_words d (remove_duplicate_chars letters)).map Prod.fst).insertionSort
      (· ≤ ·) with
  | nil =>
    rw [hwords] at hperm
    have h1 : (filter_words d (remove_duplicate_chars letters)).map Prod.fst = [] :=
      hperm.symm.eq_nil
    have h2 : filter_words d (remove_duplicate_chars letters) = [] := by
      simpa using h1
    simp [h2]
  | cons w0 rest =>
    have hw0 : w0 ∈ (filter_words d (remove_duplicate_chars letters)).map Prod.fst := by
      have hmem : w0 ∈ ((filter_words d (remove_duplicate_chars letters)).map
          Prod.fst).insertionSort (· ≤ ·) := by
        rw [hwords]
        exact List.mem_cons_self _ _
      exact (List.mem_insertionSort _).mp hmem
    rcases List.mem_map.mp hw0 with ⟨pv, hpv, hfst⟩
    have hmemd : (w0, pv.2) ∈ d := by
      have h3 : pv ∈ d := List.mem_of_mem_filter hpv
      rw [← hfst]
      simpa using h3
    rcases lookup_some_of_mem hmemd with ⟨w, hw⟩
    have hne2 : filter_words d (remove_duplicate_chars letters) ≠ [] :=
      List.ne_nil_of_mem hpv
    simp [hw, hne2]

theorem lookup_zip_range {α : Type} [BEq α] [LawfulBEq α] :
    ∀ (cs : List α) (k : Nat), cs.Nodup → ∀ (s : α) (i : Nat),
      ((cs.zip (List.range' k cs.length)).lookup s = some i ↔
        (k ≤ i ∧ cs[i - k]? = some s))
  | [], k, _, s, i => by simp
  | c :: t, k, hnd, s, i => by
    have hnotin : c ∉ t := (List.nodup_cons.mp hnd).1
    have ih := lookup_zip_range t (k + 1) (List.nodup_cons.mp hnd).2 s i
    rw [List.length_cons, List.range'_succ, List.zip_cons_cons]
    by_cases hs : s = c
    · subst hs
      rw [List.lookup_cons]
      simp only [beq_self_eq_true]
      constructor
      · intro h
        have hik : k = i := by simpa using h
        subst hik
        simp
      · rintro ⟨hki, hget⟩
        cases hik : i - k with
        | zero =>
          have : i = k := Nat.le_antisymm (Nat.sub_eq_zero_iff_le.mp hik) hki
          subst this
          rfl
        | succ j =>
          rw [hik, List.getElem?_cons_succ] at hget
          exact absurd (List.getElem?_mem hget) hnotin
    · have hbeq : (s == c) = false := by simpa using hs
      rw [List.lookup_cons]
      simp only [hbeq]
      rw [ih]
      constructor
      · rintro ⟨h1, h2⟩
        have hik : i - k = (i - (k + 1)) + 1 := by omega
        refine ⟨by omega, ?_⟩
        rw [hik, List.getElem?_cons_succ]
        exact h2
      · rintro ⟨h1, h2⟩
        have hik : i ≠ k := by
          intro h
          subst h
          rw [Nat.sub_self, List.getElem?_cons_zero] at h2
          exact hs (by simpa using h2.symm)
        have hik2 : i - k = (i - (k + 1)) + 1 := by omega
        rw [hik2, List.getElem?_cons_succ] at h2
        exact ⟨by omega, h2⟩

theorem lookup_range_zip {α : Type} :
    ∀ (cs : List α) (k : Nat) (i : Nat) (s : α),
      (((List.range' k cs.length).zip cs).lookup i = some s ↔
        (k ≤ i ∧ cs[i - k]? = some s))
  | [], k, i, s => by simp
  | c :: t, k, i, s => by
    have ih := lookup_range_zip t (k + 1) i s
    rw [List.length_cons, List.range'_succ, List.zip_cons_cons]
    by_cases hik : i = k
    · subst hik
      rw [List.lookup_cons]
      simp only [beq_self_eq_true]
      simp
    · have hbeq : (i == k) = false := by simpa using hik
      rw [List.lookup_cons]
      simp only [hbeq]
      rw [ih]
      constructor
      · rintro ⟨h1, h2⟩
        have hik2 : i - k = (i - (k + 1)) + 1 := by omega
        refine ⟨by omega, ?_⟩
        rw [hik2, List.getElem?_cons_succ]
        exact h2
      · rintro ⟨h1, h2⟩
        have hik2 : i - k = (i - (k + 1)) + 1 := by omega
        rw [hik2, List.getElem?_cons_succ] at h2
        exact ⟨by omega, h2⟩

theorem remove_duplicate_chars_nodup (letters : String) :
    (remove_duplicate_chars letters).data.Nodup :=
  (List.perm_insertionSort (· ≤ ·) letters.data.dedup).symm.nodup
    (List.nodup_dedup letters.data)

theorem remove_duplicate_chars_mem (letters : String) (c : Char) :
    c ∈ (remove_duplicate_chars letters).data ↔ c ∈ letters.data := by
  show c ∈ (letters.data.dedup).insertionSort (· ≤ ·) ↔ c ∈ letters.data
  rw [List.mem_insertionSort, List.mem_dedup]

theorem charsOf_nodup (s : String) (h : s.data.Nodup) : (charsOf s).Nodup := by
  refine List.Nodup.map ?_ h
  intro a b hab
  have h2 := congrArg String.data hab
  simpa using h2

theorem lookup_eq_none_of_keys {α β : Type} [BEq α] [LawfulBEq α] :
    ∀ (l : List (α × β)) (k : α), (∀ p ∈ l, p.1 ≠ k) → l.lookup k = none := by
  intro l
  induction l with
  | nil => intro k _; rfl
  | cons q t ih =>
    intro k h
    obtain ⟨qk, qv⟩ := q
    have h1 : qk ≠ k := h (qk, qv) (List.mem_cons_self _ _)
    have hbeq : (k == qk) = false := by
      simpa using (fun he => h1 he.symm)
    rw [List.lookup_cons]
    simp only [hbeq]
    exact ih k (fun p hp => h p (List.mem_cons_of_mem _ hp))

/-- Claim C4: the char tables cover exactly the distinct characters of the
letters argument, sorted, with contiguous indices: char2idx and idx2char
are mutually inverse, the keys of char2idx are precisely the distinct
characters of letters, every index below the distinct-character count has
exactly one character and vice versa, the underlying character enumeration
is strictly increasing, and the tables inside any successful
pickle_word_vecs output are exactly these two tables. -/
theorem char_tables_bijection (letters : String) :
    (∀ s i, (char2idxTable (remove_duplicate_chars letters)).lookup s = some i ↔
        (idx2charTable (remove_duplicate_chars letters)).lookup i = some s)
    ∧ (∀ s, (∃ i, (char2idxTable (remove_duplicate_chars letters)).lookup s = some i) ↔
        ∃ c ∈ letters.data, s = String.mk [c])
    ∧ (∀ i, (∃ s, (idx2charTable (remove_duplicate_chars letters)).lookup i = some s) ↔
        i < letters.data.dedup.length)
    ∧ (remove_duplicate_chars letters).data.Pairwise (· < ·)
    ∧ (∀ d, ((pickle_word_vecs d letters).map
          (fun o => (o.char2idx, o.idx2char))).getD
            (char2idxTable (remove_duplicate_chars letters),
             idx2charTable (remove_duplicate_chars letters))
        = (char2idxTable (remove_duplicate_chars letters),
           idx2charTable (remove_duplicate_chars letters))) := by
  have hnd : (charsOf (remove_duplicate_chars letters)).Nodup :=
    charsOf_nodup _ (remove_duplicate_chars_nodup letters)
  have hlen : (charsOf (remove_duplicate_chars letters)).length = letters.data.dedup.length := by
    rw [charsOf, List.length_map]
    exact (List.perm_insertionSort (· ≤ ·) letters.data.dedup).length_eq
  have hkey : ∀ s i, (char2idxTable (remove_duplicate_chars letters)).lookup s = some i ↔
      (charsOf (remove_duplicate_chars letters))[i]? = some s := by
    intro s i
    rw [char2idxTable, List.range_eq_range']
    simpa using lookup_zip_range (charsOf (remove_duplicate_chars letters)) 0 hnd s i
  have hval : ∀ i s, (idx2charTable (remove_duplicate_chars letters)).lookup i = some s ↔
      (charsOf (remove_duplicate_chars letters))[i]? = some s := by
    intro i s
    rw [idx2charTable, List.range_eq_range']
    simpa using lookup_range_zip (charsOf (remove_duplicate_chars letters)) 0 i s
  refine ⟨?_, ?_, ?_, ?_, ?_⟩
  · intro s i
    rw [hkey, hval]
  · intro s
    constructor
    · rintro ⟨i, hi⟩
      have hmem : s ∈ charsOf (remove_duplicate_chars letters) :=
        List.getElem?_mem ((hkey s i).mp hi)
      rcases List.mem_map.mp hmem with ⟨c, hc, hceq⟩
      exact ⟨c, (remove_duplicate_chars_mem letters c).mp hc, hceq.symm⟩
    · rintro ⟨c, hc, rfl⟩
      have hmem : String.mk [c] ∈ charsOf (remove_duplicate_chars letters) :=
        List.mem_map.mpr ⟨c, (remove_duplicate_chars_mem letters c).mpr hc, rfl⟩
      rcases List.mem_iff_getElem?.mp hmem with ⟨i, hi⟩
      exact ⟨i, (hkey _ i).mpr hi⟩
  · intro i
    constructor
    · rintro ⟨s, hs⟩
      rw [← hlen]
      exact (List.getElem?_eq_some_iff.mp ((hval i s).mp hs)).1
    · intro hi
      rw [← hlen] at hi
      exact ⟨(charsOf (remove_duplicate_chars letters))[i],
        (hval i _).mpr (List.getElem?_eq_getElem hi)⟩
  · have hsorted : List.Pairwise (· ≤ ·) (remove_duplicate_chars letters).data :=
      List.sorted_insertionSort (· ≤ ·) letters.data.dedup
    exact (hsorted.and (remove_duplicate_chars_nodup letters)).imp
      (fun h => lt_of_le_of_ne h.1 h.2)
  · intro d
    simp only [pickle_word_vecs]
    cases ((filter_words d (remove_duplicate_chars letters)).map Prod.fst).insertionSort
        (· ≤ ·) with
    | nil => rfl
    | cons w0 rest =>
      dsimp only
      cases d.lookup w0 with
      | none => rfl
      | some v => rfl

/-- Claim C3, amended: the char tables produced by pickle_word_vecs consist
exclusively of one-character entries for the distinct characters of the
letters argument; the multi-character sentinel names START and END are not
members of either table.  (In the repository the sentinels enter the
alphabet only through the words-dataset collaborator outside the
preprocessing script.) -/
theorem char_tables_no_sentinels (letters : String) :
    (char2idxTable (remove_duplicate_chars letters)).lookup "START" = none
    ∧ (char2idxTable (remove_duplicate_chars letters)).lookup "END" = none
    ∧ (∀ p ∈ idx2charTable (remove_duplicate_chars letters),
        p.2 ≠ "START" ∧ p.2 ≠ "END") := by
  have hone : ∀ (t : String), t.data.length ≠ 1 →
      ∀ p ∈ char2idxTable (remove_duplicate_chars letters), p.1 ≠ t := by
    intro t ht p hp
    have h1 : p.1 ∈ charsOf (remove_duplicate_chars letters) := (List.of_mem_zip hp).1
    rcases List.mem_map.mp h1 with ⟨c, _, hceq⟩
    intro he
    rw [← (hceq.trans he)] at ht
    exact ht rfl
  have hone2 : ∀ (t : String), t.data.length ≠ 1 →
      ∀ p ∈ idx2charTable (remove_duplicate_chars letters), p.2 ≠ t := by
    intro t ht p hp
    have h1 : p.2 ∈ charsOf (remove_duplicate_chars letters) := (List.of_mem_zip hp).2
    rcases List.mem_map.mp h1 with ⟨c, _, hceq⟩
    intro he
    rw [← (hceq.trans he)] at ht
    exact ht rfl
  refine ⟨?_, ?_, ?_⟩
  · exact lookup_eq_none_of_keys _ _ (hone "START" (by decide))
  · exact lookup_eq_none_of_keys _ _ (hone "END" (by decide))
  · intro p hp
    exact ⟨hone2 "START" (by decide) p hp, hone2 "END" (by decide) p hp⟩

/-- Claim C3, counterexample: running pickle_word_vecs on a one-word
dictionary with letters "ab" succeeds, and the produced char tables have no
entry for START or END in either direction. -/
theorem char_tables_sentinels_cex :
    ((pickle_word_vecs [(("a" : String), [(0 : ℚ)])] "ab").map
      (fun o => (o.char2idx.lookup "START", o.char2idx.lookup "END",
        (o.idx2char.map Prod.snd).contains "START",
        (o.idx2char.map Prod.snd).contains "END")))
      = some (none, none, false, false) := by decide

theorem embedding_to_hidden_eq {P O : Type} (S : ScalarSem) (m : CharDecoderHeadRNN P O)
    (x : List (List ℚ)) :
    m.embedding_to_hidden S x =
      m.headBn.apply S ((m.headLin.applyBatch x).map (List.map (applyAct S m.headAct))) := by
  rw [CharDecoderHeadRNN.embedding_to_hidden, runSequential]
  show ((m.headBn.apply S ((m.headLin.applyBatch x).map
      (List.map (applyAct S m.headAct)))).bind (fun y => some y)) = _
  cases m.headBn.apply S ((m.headLin.applyBatch x).map (List.map (applyAct S m.headAct))) with
  | none => rfl
  | some y => rfl

/-- Claim C5: with use_head true, the state handed to the inner decoder is
the word-embedding batch transformed by, in this order, the affine
projection, the configured nonlinearity, the batch normalization over the
batch dimension, and the reshape that adds the leading num-layers dimension
of size one (duplicated into a state pair exactly when the mode is LSTM);
a batch-normalization failure propagates as a failure of the whole call. -/
theorem forward_head_pipeline {P O : Type} (S : ScalarSem) (m : CharDecoderHeadRNN P O)
    (x : List (List ℚ)) (packed : P) :
    m.forward S (TVal.mat x) packed true =
      (m.headBn.apply S ((m.headLin.applyBatch x).map (List.map (applyAct S m.headAct)))).map
        (fun y => m.decoder.forward
          (if m.mode = "LSTM" then TVal.pair (TVal.t3 (unsqueeze0 y)) (TVal.t3 (unsqueeze0 y))
           else TVal.t3 (unsqueeze0 y)) packed) := by
  rw [show m.headBn.apply S ((m.headLin.applyBatch x).map (List.map (applyAct S m.headAct)))
      = m.embedding_to_hidden S x from (embedding_to_hidden_eq S m x).symm]
  rw [CharDecoderHeadRNN.forward]
  cases h : m.embedding_to_hidden S x with
  | none => simp [h]
  | some y => simp [h, CharDecoderRNN.forward]

/-- Claim C6: with use_head true and the LSTM mode, whenever the head
transform succeeds the initial state passed to the decoder is a pair whose
two components are the same, identical transformed tensor. -/
theorem forward_lstm_pair {P O : Type} (S : ScalarSem) (m : CharDecoderHeadRNN P O)
    (x : List (List ℚ)) (packed : P) (y : List (List ℚ))
    (hmode : m.mode = "LSTM") (hy : m.embedding_to_hidden S x = some y) :
    m.forward S (TVal.mat x) packed true =
      some (m.decoder.forward
        (TVal.pair (TVal.t3 (unsqueeze0 y)) (TVal.t3 (unsqueeze0 y))) packed) := by
  rw [CharDecoderHeadRNN.forward]
  simp [hy, hmode, CharDecoderRNN.forward]

theorem lstmModel_head_eval :
    lstmModel.embedding_to_hidden scalarSemId [[0]] = some [[0]] := by
  simp [CharDecoderHeadRNN.embedding_to_hidden, runSequential, List.foldlM, runLayer,
    LinearM.applyBatch, LinearM.apply, dot, applyAct, BatchNorm1dM.apply, lstmModel,
    CharDecoderRNN.make, scalarSemId, unsqueeze0, List.range_succ, featureColumn,
    listMean, listBiasedVar]

/-- Witness for forward_lstm_pair at the concrete one-feature LSTM module. -/
theorem forward_lstm_pair_witness :
    lstmModel.mode = "LSTM" ∧
    lstmModel.embedding_to_hidden scalarSemId [[0]] = some [[0]] ∧
    lstmModel.forward scalarSemId (TVal.mat [[0]]) 0 true =
      some (lstmModel.decoder.forward
        (TVal.pair (TVal.t3 (unsqueeze0 [[0]])) (TVal.t3 (unsqueeze0 [[0]]))) 0) :=
  ⟨rfl, lstmModel_head_eval,
    forward_lstm_pair scalarSemId lstmModel [[0]] 0 [[0]] rfl lstmModel_head_eval⟩

/-- Claim C7: with use_head false the hidden argument reaches the inner
decoder completely unchanged — the call result equals the decoder applied
to exactly the passed arguments — and it is independent of every head
component, of the mode, and of the scalar interpretation; the module
carries no other state, so the result depends only on the explicit
arguments. -/
theorem forward_no_head_bypass {P O : Type} (S S2 : ScalarSem)
    (m : CharDecoderHeadRNN P O) (mode2 : String) (lin2 : LinearM) (act2 : ActKind)
    (bn2 : BatchNorm1dM) (hidden : TVal) (packed : P) :
    m.forward S hidden packed false = some (m.decoder.forward hidden packed)
    ∧ CharDecoderHeadRNN.forward S2
        { mode := mode2, decoder := m.decoder, headLin := lin2, headAct := act2,
          headBn := bn2 } hidden packed false
      = m.forward S hidden packed false :=
  ⟨rfl, rfl⟩

/-- Claim C8: constructing CharDecoderHeadRNN yields no module exactly when
the nonlinearity name lies outside relu, sigmoid, tanh — the ACTS lookup
raises KeyError inside the initializer, before any forward call can exist —
and construction succeeds for each of those three names. -/
theorem mk_head_activation_names {P O : Type} (mode : String)
    (hs cc ces ies : Nat) (name : String) (kwargs : List (String × String))
    (lin : LinearM) (bn : BatchNorm1dM) (fwd : TVal → P → O) :
    mkCharDecoderHeadRNN mode hs cc ces ies name kwargs lin bn fwd = none
      ↔ name ∉ (["relu", "sigmoid", "tanh"] : List String) := by
  have hlk : ACTS.lookup name = none ↔ name ∉ (["relu", "sigmoid", "tanh"] : List String) := by
    simp only [ACTS, List.lookup_cons, List.mem_cons, List.mem_singleton]
    by_cases h1 : name = "relu"
    · subst h1
      simp
    · have b1 : (name == "relu") = false := beq_eq_false_iff_ne.mpr h1
      by_cases h2 : name = "sigmoid"
      · subst h2
        simp [b1]
      · have b2 : (name == "sigmoid") = false := beq_eq_false_iff_ne.mpr h2
        by_cases h3 : name = "tanh"
        · subst h3
          simp [b1, b2]
        · have b3 : (name == "tanh") = false := beq_eq_false_iff_ne.mpr h3
          simp [b1, b2, b3, h1, h2, h3]
  rw [mkCharDecoderHeadRNN, ← hlk]
  cases ACTS.lookup name with
  | none => simp
  | some a => simp

/-- Claim C9: the extra keyword arguments accepted by the CharDecoderHeadRNN
initializer are silently discarded: the inner decoder is the same with or
without them, and the kwargs recorded for the WrappedRNN of any constructed
module are empty — the initializer never forwards them, contrary to its
docstring. -/
theorem mk_head_kwargs_discarded {P O : Type} (mode : String)
    (hs cc ces ies : Nat) (name : String) (kwargs : List (String × String))
    (lin : LinearM) (bn : BatchNorm1dM) (fwd : TVal → P → O) :
    (mkCharDecoderHeadRNN mode hs cc ces ies name kwargs lin bn fwd).map
        (fun m => m.decoder)
      = (mkCharDecoderHeadRNN mode hs cc ces ies name [] lin bn fwd).map
        (fun m => m.decoder)
    ∧ ((mkCharDecoderHeadRNN mode hs cc ces ies name kwargs lin bn fwd).map
        (fun m => m.decoder.rnnArgs.kwargs)).getD [] = [] := by
  constructor
  · simp only [mkCharDecoderHeadRNN]
  · simp only [mkCharDecoderHeadRNN]
    cases ACTS.lookup name with
    | none => rfl
    | some a => rfl

/-- Claim C1, behavior at the failing input: for the model whose scores
make END the strict arg-max at every step (so in particular at the very
first step after START), the demo generation loop returns the output
string "END" — the first emitted character is appended with no END check —
and stops only after a second forward call inside the while loop; the
returned output is not empty. -/
theorem generate_end_first_step_eval :
    generateGreedy scalarSemId endModel endIdx2char 0 (TVal.mat [[0]]) 5 = some "END"
    ∧ some "END" ≠ (some "" : Option String) := by
  constructor
  · decide
  · decide
